import Mathlib

/-
Verification of the dnf5 repository glue layer: the drop-in configuration
file listing (create_sorted_file_list), the error policy of
Base::with_config_file_path, the repoquery command (configure checks and
the run filter pipeline), and the D-Bus method surface of the
org.rpm.dnf.v0.rpm.Rpm interface.
-/

/-! ## Drop-in configuration file listing

Shallow embedding of the anonymous-namespace function
create_sorted_file_list (base.cpp part of repo_sack.hpp sources).
A directory entry records the directory it came from, its filename, its
extension (the final dotted component of the filename as returned by
path.extension) and whether it is a regular file.  Path strings are
modelled as lists of characters, ordered lexicographically exactly as the
native path comparison orders them.  A directory listing is a list of
entries; the traversal order of directory_iterator corresponds to the
order of the list. -/

structure DirEntry where
  dir : List Char
  fname : List Char
  ext : List Char
  regular : Bool
deriving DecidableEq

/-- The filter of the inner loop: dentry.is_regular_file and
path.extension matching file_extension. -/
def keepsFile (fileExtension : List Char) (e : DirEntry) : Bool :=
  e.regular && e.ext == fileExtension

/-- The duplicate check of the inner loop: some path already in the list
has the same filename. -/
def fnameMem (f : List Char) (paths : List DirEntry) : Bool :=
  paths.any (fun p => p.fname == f)

/-- Processing of one directory of create_sorted_file_list: each kept
entry whose filename is not yet present is pushed to the back of the
accumulated path list. -/
def addDirFiles (fileExtension : List Char) (paths : List DirEntry) (dir : List DirEntry) :
    List DirEntry :=
  dir.foldl
    (fun acc e =>
      if keepsFile fileExtension e && !fnameMem e.fname acc then acc ++ [e] else acc)
    paths

/-- The collection phase of create_sorted_file_list over all directories,
starting from the empty path list. -/
def collectFiles (directories : List (List DirEntry)) (fileExtension : List Char) :
    List DirEntry :=
  directories.foldl (addDirFiles fileExtension) []

/-- Comparison by filename, non-strict: used as the sorting relation. -/
def fnameLe (a b : DirEntry) : Prop := a.fname ≤ b.fname

/-- Comparison by filename, strict: the comparator handed to std sort is
fun p1 p2 => p1.filename < p2.filename. -/
def fnameLt (a b : DirEntry) : Prop := a.fname < b.fname

instance : DecidableRel fnameLe := fun a b =>
  inferInstanceAs (Decidable (a.fname ≤ b.fname))

instance : DecidableRel fnameLt := fun a b =>
  inferInstanceAs (Decidable (a.fname < b.fname))

instance : IsTotal DirEntry fnameLe := ⟨fun a b => le_total a.fname b.fname⟩

instance : IsTrans DirEntry fnameLe := ⟨fun _ _ _ h h2 => le_trans h h2⟩

instance : IsAntisymm DirEntry fnameLt :=
  ⟨fun _ _ h h2 => absurd h2 (lt_asymm h)⟩

/-- Embedding of create_sorted_file_list: collect the kept entries in
directory order, then sort by filename.  The source sorts with std sort
under the strict comparator on filenames; since the kept filenames are
pairwise distinct (proved below) any comparison sort yields the same
list, and insertion sort under the non-strict relation is used here. -/
def create_sorted_file_list (directories : List (List DirEntry)) (fileExtension : List Char) :
    List DirEntry :=
  List.insertionSort fnameLe (collectFiles directories fileExtension)

/-- Pairwise distinct filenames inside a listing; a real directory cannot
hold two entries with the same filename. -/
def distinctFnames (l : List DirEntry) : Prop :=
  l.Pairwise (fun a b => a.fname ≠ b.fname)

instance (l : List DirEntry) : Decidable (distinctFnames l) := by
  unfold distinctFnames
  infer_instance

theorem fnameMem_append (f : List Char) (a b : List DirEntry) :
    fnameMem f (a ++ b) = (fnameMem f a || fnameMem f b) := by
  simp [fnameMem, List.any_append]

theorem fnameMem_iff (f : List Char) (l : List DirEntry) :
    fnameMem f l = true ↔ ∃ p ∈ l, p.fname = f := by
  simp [fnameMem, List.any_eq_true]

theorem fnameMem_false_iff (f : List Char) (l : List DirEntry) :
    fnameMem f l = false ↔ ∀ p ∈ l, p.fname ≠ f := by
  rw [← Bool.not_eq_true, fnameMem_iff]
  push_neg
  rfl

/-- With distinct filenames in the directory, processing a directory
appends exactly the kept entries whose filename is new relative to the
accumulated list at the start of the directory. -/
theorem addDirFiles_eq_filter (fileExtension : List Char) :
    ∀ (dir : List DirEntry), distinctFnames dir → ∀ (paths : List DirEntry),
      addDirFiles fileExtension paths dir =
        paths ++ dir.filter
          (fun e => keepsFile fileExtension e && !fnameMem e.fname paths)
  | [], _, paths => by simp [addDirFiles]
  | e :: d, h, paths => by
    have hne : ∀ x ∈ d, e.fname ≠ x.fname := (List.pairwise_cons.mp h).1
    have hd : distinctFnames d := (List.pairwise_cons.mp h).2
    have hstep : addDirFiles fileExtension paths (e :: d) =
        if keepsFile fileExtension e && !fnameMem e.fname paths then
          addDirFiles fileExtension (paths ++ [e]) d
        else
          addDirFiles fileExtension paths d := by
      simp only [addDirFiles, List.foldl_cons]
      by_cases hc : (keepsFile fileExtension e && !fnameMem e.fname paths) = true
      · rw [if_pos hc, if_pos hc]
      · rw [if_neg hc, if_neg hc]
    rw [hstep]
    by_cases hc : (keepsFile fileExtension e && !fnameMem e.fname paths) = true
    · rw [if_pos hc, addDirFiles_eq_filter fileExtension d hd (paths ++ [e])]
      have hfc : d.filter
            (fun x => keepsFile fileExtension x && !fnameMem x.fname (paths ++ [e])) =
          d.filter (fun x => keepsFile fileExtension x && !fnameMem x.fname paths) := by
        apply List.filter_congr
        intro x hx
        have : fnameMem x.fname (paths ++ [e]) = fnameMem x.fname paths := by
          rw [fnameMem_append]
          have : fnameMem x.fname [e] = false := by
            rw [fnameMem_false_iff]
            intro p hp
            rcases List.mem_singleton.mp hp with rfl
            exact hne x hx
          rw [this, Bool.or_false]
        rw [this]
      rw [hfc]
      have hfe : (e :: d).filter
            (fun x => keepsFile fileExtension x && !fnameMem x.fname paths) =
          e :: d.filter (fun x => keepsFile fileExtension x && !fnameMem x.fname paths) := by
        rw [List.filter_cons, if_pos hc]
      rw [hfe, List.append_assoc, List.singleton_append]
    · rw [if_neg hc, addDirFiles_eq_filter fileExtension d hd paths]
      have hfe : (e :: d).filter
            (fun x => keepsFile fileExtension x && !fnameMem x.fname paths) =
          d.filter (fun x => keepsFile fileExtension x && !fnameMem x.fname paths) := by
        rw [List.filter_cons, if_neg hc]
      rw [hfe]

/-- The accumulated list keeps pairwise distinct filenames: the duplicate
check blocks every repeated filename. -/
theorem distinctFnames_addDirFiles (fileExtension : List Char) (paths dir : List DirEntry)
    (hp : distinctFnames paths) (hd : distinctFnames dir) :
    distinctFnames (addDirFiles fileExtension paths dir) := by
  rw [addDirFiles_eq_filter fileExtension dir hd paths]
  rw [distinctFnames, List.pairwise_append]
  refine ⟨hp, List.Pairwise.sublist (List.filter_sublist dir) hd, ?_⟩
  intro a ha b hb
  have hkept := (List.mem_filter.mp hb).2
  have hbm : fnameMem b.fname paths = false := by
    simp only [Bool.and_eq_true, Bool.not_eq_true'] at hkept
    exact hkept.2
  intro hab
  have := (fnameMem_false_iff b.fname paths).mp hbm a ha
  exact this hab

theorem distinctFnames_foldl_addDirFiles (fileExtension : List Char) :
    ∀ (dirs : List (List DirEntry)) (paths : List DirEntry),
      (∀ d ∈ dirs, distinctFnames d) → distinctFnames paths →
      distinctFnames (dirs.foldl (addDirFiles fileExtension) paths)
  | [], paths, _, hp => hp
  | d :: ds, paths, hds, hp => by
    rw [List.foldl_cons]
    exact distinctFnames_foldl_addDirFiles fileExtension ds _
      (fun x hx => hds x (List.mem_cons_of_mem d hx))
      (distinctFnames_addDirFiles fileExtension paths d hp (hds d (List.mem_cons_self d ds)))

/-- The collected list has pairwise distinct filenames. -/
theorem distinctFnames_collectFiles (directories : List (List DirEntry))
    (fileExtension : List Char) (hds : ∀ d ∈ directories, distinctFnames d) :
    distinctFnames (collectFiles directories fileExtension) :=
  distinctFnames_foldl_addDirFiles fileExtension directories [] hds List.Pairwise.nil

/-- Whether a filename occurs in a list depends only on the underlying
multiset of entries. -/
theorem fnameMem_perm (f : List Char) {l l2 : List DirEntry} (h : l.Perm l2) :
    fnameMem f l = fnameMem f l2 := by
  by_cases hv : fnameMem f l = true
  · rw [hv]
    symm
    rw [fnameMem_iff] at hv ⊢
    obtain ⟨p, hp, he⟩ := hv
    exact ⟨p, h.mem_iff.mp hp, he⟩
  · rw [Bool.not_eq_true] at hv
    rw [hv]
    symm
    rw [fnameMem_false_iff] at hv ⊢
    intro p hp
    exact hv p (h.mem_iff.mpr hp)

/-- Permuting the accumulated list and the directory listing permutes the
result of processing one directory. -/
theorem addDirFiles_perm (fileExtension : List Char) {paths paths2 dir dir2 : List DirEntry}
    (hd : distinctFnames dir) (hpp : paths.Perm paths2) (hdp : dir.Perm dir2) :
    (addDirFiles fileExtension paths dir).Perm (addDirFiles fileExtension paths2 dir2) := by
  have hd2 : distinctFnames dir2 :=
    (List.Perm.pairwise_iff (fun h => h.symm) hdp).mp hd
  rw [addDirFiles_eq_filter fileExtension dir hd paths,
    addDirFiles_eq_filter fileExtension dir2 hd2 paths2]
  have hfc : dir2.filter (fun e => keepsFile fileExtension e && !fnameMem e.fname paths2) =
      dir2.filter (fun e => keepsFile fileExtension e && !fnameMem e.fname paths) := by
    apply List.filter_congr
    intro x _
    rw [fnameMem_perm x.fname hpp]
  rw [hfc]
  exact hpp.append (List.Perm.filter _ hdp)

/-- The collection phase is invariant, up to permutation, under permuting
each directory listing. -/
theorem collectFiles_foldl_perm (fileExtension : List Char) :
    ∀ {dirs dirs2 : List (List DirEntry)}, List.Forall₂ List.Perm dirs dirs2 →
      (∀ d ∈ dirs, distinctFnames d) →
      ∀ {paths paths2 : List DirEntry}, paths.Perm paths2 →
      (dirs.foldl (addDirFiles fileExtension) paths).Perm
        (dirs2.foldl (addDirFiles fileExtension) paths2)
  | [], [], _, _, _, _, hpp => hpp
  | d :: ds, d2 :: ds2, hf, hds, _, _, hpp => by
    rcases List.forall₂_cons.mp hf with ⟨hdd, hrest⟩
    rw [List.foldl_cons, List.foldl_cons]
    exact collectFiles_foldl_perm fileExtension hrest
      (fun x hx => hds x (List.mem_cons_of_mem d hx))
      (addDirFiles_perm fileExtension (hds d (List.mem_cons_self d ds)) hpp hdd)

/-- Every listing on the right of a Forall₂ permutation relation has a
permuted counterpart on the left. -/
theorem forall₂_perm_exists_left :
    ∀ {dirs dirs2 : List (List DirEntry)}, List.Forall₂ List.Perm dirs dirs2 →
      ∀ d2 ∈ dirs2, ∃ d ∈ dirs, d.Perm d2
  | _, _, List.Forall₂.nil, d2, hd2 => absurd hd2 (List.not_mem_nil d2)
  | a :: _, b :: l2, List.Forall₂.cons h hrest, d2, hd2 => by
    rcases List.mem_cons.mp hd2 with rfl | hmem
    · exact ⟨a, List.mem_cons_self a _, h⟩
    · obtain ⟨d, hd, hdp⟩ := forall₂_perm_exists_left hrest d2 hmem
      exact ⟨d, List.mem_cons_of_mem a hd, hdp⟩

/-- Claim C1: the file list produced by create_sorted_file_list is sorted
alphabetically by filename with pairwise distinct kept filenames (stated
as strict pairwise ordering), and the result is deterministic: permuting
the traversal order within each input directory leaves the output list
unchanged. -/
theorem create_sorted_file_list_sorted_and_deterministic
    (directories directories2 : List (List DirEntry)) (fileExtension : List Char)
    (hnodup : ∀ d ∈ directories, distinctFnames d)
    (hperm : List.Forall₂ List.Perm directories directories2) :
    List.Pairwise fnameLt (create_sorted_file_list directories fileExtension) ∧
    create_sorted_file_list directories2 fileExtension =
      create_sorted_file_list directories fileExtension := by
  have hperm_sort : ∀ dirs : List (List DirEntry),
      (create_sorted_file_list dirs fileExtension).Perm (collectFiles dirs fileExtension) :=
    fun dirs => List.perm_insertionSort fnameLe (collectFiles dirs fileExtension)
  have hsorted_le : ∀ dirs : List (List DirEntry),
      List.Sorted fnameLe (create_sorted_file_list dirs fileExtension) :=
    fun dirs => List.sorted_insertionSort fnameLe (collectFiles dirs fileExtension)
  have hnodup2 : ∀ d ∈ directories2, distinctFnames d := by
    intro d2 hd2
    obtain ⟨d, hd, hdp⟩ := forall₂_perm_exists_left hperm d2 hd2
    exact (List.Perm.pairwise_iff (fun h => h.symm) hdp).mp (hnodup d hd)
  have hstrict : ∀ dirs : List (List DirEntry), (∀ d ∈ dirs, distinctFnames d) →
      List.Pairwise fnameLt (create_sorted_file_list dirs fileExtension) := by
    intro dirs hnd
    have hdist : distinctFnames (create_sorted_file_list dirs fileExtension) :=
      (List.Perm.pairwise_iff (fun h => h.symm) (hperm_sort dirs)).mpr
        (distinctFnames_collectFiles dirs fileExtension hnd)
    have := (hsorted_le dirs).and hdist
    exact this.imp (fun h => lt_of_le_of_ne h.1 h.2)
  refine ⟨hstrict directories hnodup, ?_⟩
  have hcp : (collectFiles directories fileExtension).Perm
      (collectFiles directories2 fileExtension) :=
    collectFiles_foldl_perm fileExtension hperm hnodup (List.Perm.refl [])
  have hchain : (create_sorted_file_list directories2 fileExtension).Perm
      (create_sorted_file_list directories fileExtension) :=
    ((hperm_sort directories2).trans hcp.symm).trans (hperm_sort directories).symm
  exact List.eq_of_perm_of_sorted hchain (hstrict directories2 hnodup2)
    (hstrict directories hnodup)

theorem create_sorted_file_list_c1_witness :
    List.Pairwise fnameLt
      (create_sorted_file_list
        [[⟨"d1".toList, "b.conf".toList, ".conf".toList, true⟩,
          ⟨"d1".toList, "a.conf".toList, ".conf".toList, true⟩],
         [⟨"d2".toList, "a.conf".toList, ".conf".toList, true⟩,
          ⟨"d2".toList, "c.txt".toList, ".txt".toList, true⟩]] ".conf".toList) ∧
    create_sorted_file_list
        [[⟨"d1".toList, "a.conf".toList, ".conf".toList, true⟩,
          ⟨"d1".toList, "b.conf".toList, ".conf".toList, true⟩],
         [⟨"d2".toList, "c.txt".toList, ".txt".toList, true⟩,
          ⟨"d2".toList, "a.conf".toList, ".conf".toList, true⟩]] ".conf".toList =
      create_sorted_file_list
        [[⟨"d1".toList, "b.conf".toList, ".conf".toList, true⟩,
          ⟨"d1".toList, "a.conf".toList, ".conf".toList, true⟩],
         [⟨"d2".toList, "a.conf".toList, ".conf".toList, true⟩,
          ⟨"d2".toList, "c.txt".toList, ".txt".toList, true⟩]] ".conf".toList :=
  create_sorted_file_list_sorted_and_deterministic _ _ _ (by decide) (by decide)

/-- The property that e is a first kept occurrence: some directory of the
input holds e, e passes the extension and regular-file filter, and no
directory earlier in the input vector holds a filter-passing entry with
the same filename. -/
def firstKeptOccur (fileExtension : List Char) (directories : List (List DirEntry))
    (e : DirEntry) : Prop :=
  ∃ pre d suf, directories = pre ++ d :: suf ∧ e ∈ d ∧
    keepsFile fileExtension e = true ∧
    ∀ p ∈ pre, ∀ x ∈ p, keepsFile fileExtension x = true → x.fname ≠ e.fname

theorem firstKeptOccur_nil (fileExtension : List Char) (e : DirEntry) :
    ¬ firstKeptOccur fileExtension [] e := by
  rintro ⟨pre, d, suf, heq, _⟩
  cases pre <;> simp at heq

theorem firstKeptOccur_cons (fileExtension : List Char) (d0 : List DirEntry)
    (ds : List (List DirEntry)) (e : DirEntry) :
    firstKeptOccur fileExtension (d0 :: ds) e ↔
      (e ∈ d0 ∧ keepsFile fileExtension e = true) ∨
      ((∀ x ∈ d0, keepsFile fileExtension x = true → x.fname ≠ e.fname) ∧
        firstKeptOccur fileExtension ds e) := by
  constructor
  · rintro ⟨pre, d, suf, heq, hmem, hkeep, hpre⟩
    cases pre with
    | nil =>
      rw [List.nil_append] at heq
      injection heq with h1 h2
      subst h1
      exact Or.inl ⟨hmem, hkeep⟩
    | cons q pre2 =>
      rw [List.cons_append] at heq
      injection heq with h1 h2
      subst h1
      subst h2
      exact Or.inr ⟨hpre d0 (List.mem_cons_self d0 pre2),
        ⟨pre2, d, suf, rfl, hmem, hkeep,
          fun p hp => hpre p (List.mem_cons_of_mem d0 hp)⟩⟩
  · rintro (⟨hmem, hkeep⟩ | ⟨hd0, pre, d, suf, heq, hmem, hkeep, hpre⟩)
    · exact ⟨[], d0, ds, rfl, hmem, hkeep, by simp⟩
    · refine ⟨d0 :: pre, d, suf, by rw [heq, List.cons_append], hmem, hkeep, ?_⟩
      intro p hp
      rcases List.mem_cons.mp hp with rfl | hp2
      · exact hd0
      · exact hpre p hp2

/-- Membership in the collection phase, relative to a starting
accumulated list: an entry is in the result exactly when it was already
accumulated, or its filename is new and it is the first kept occurrence
among the remaining directories. -/
theorem mem_foldl_addDirFiles (fileExtension : List Char) :
    ∀ (dirs : List (List DirEntry)), (∀ d ∈ dirs, distinctFnames d) →
      ∀ (paths : List DirEntry) (e : DirEntry),
      (e ∈ dirs.foldl (addDirFiles fileExtension) paths ↔
        e ∈ paths ∨
          (fnameMem e.fname paths = false ∧ firstKeptOccur fileExtension dirs e))
  | [], _, paths, e => by
    simp only [List.foldl_nil]
    constructor
    · exact fun h => Or.inl h
    · rintro (h | ⟨_, hf⟩)
      · exact h
      · exact absurd hf (firstKeptOccur_nil fileExtension e)
  | d0 :: ds, hds, paths, e => by
    have hd0 : distinctFnames d0 := hds d0 (List.mem_cons_self d0 ds)
    have hrest : ∀ d ∈ ds, distinctFnames d :=
      fun x hx => hds x (List.mem_cons_of_mem d0 hx)
    rw [List.foldl_cons, addDirFiles_eq_filter fileExtension d0 hd0 paths]
    rw [mem_foldl_addDirFiles fileExtension ds hrest _ e]
    rw [firstKeptOccur_cons]
    have hF1 : e ∈ paths ++ d0.filter
          (fun x => keepsFile fileExtension x && !fnameMem x.fname paths) ↔
        e ∈ paths ∨
          (e ∈ d0 ∧ keepsFile fileExtension e = true ∧
            fnameMem e.fname paths = false) := by
      rw [List.mem_append, List.mem_filter]
      simp only [Bool.and_eq_true, Bool.not_eq_true']
      try tauto
    have hF2 : fnameMem e.fname (paths ++ d0.filter
          (fun x => keepsFile fileExtension x && !fnameMem x.fname paths)) = false ↔
        (fnameMem e.fname paths = false ∧
          ∀ x ∈ d0, keepsFile fileExtension x = true → x.fname ≠ e.fname) := by
      rw [fnameMem_append, Bool.or_eq_false_iff]
      constructor
      · rintro ⟨hp, hf⟩
        refine ⟨hp, ?_⟩
        intro x hx hkx hne
        have hxp : fnameMem x.fname paths = false := by rw [hne]; exact hp
        have hxin : x ∈ d0.filter
            (fun x => keepsFile fileExtension x && !fnameMem x.fname paths) := by
          rw [List.mem_filter]
          refine ⟨hx, ?_⟩
          rw [Bool.and_eq_true, Bool.not_eq_true']
          exact ⟨hkx, hxp⟩
        exact (fnameMem_false_iff e.fname _).mp hf x hxin hne
      · rintro ⟨hp, hall⟩
        refine ⟨hp, ?_⟩
        rw [fnameMem_false_iff]
        intro x hxin
        have hx := List.mem_filter.mp hxin
        have hkx : keepsFile fileExtension x = true := by
          have h2 := hx.2
          rw [Bool.and_eq_true] at h2
          exact h2.1
        exact hall x hx.1 hkx
    rw [hF1, hF2]
    tauto

/-- Claim C6: an entry is in the list produced by create_sorted_file_list
exactly when it passes the extension filter and comes from the earliest
input directory holding its filename; in particular every later
occurrence of an already-seen filename is excluded. -/
theorem create_sorted_file_list_first_file_wins
    (directories : List (List DirEntry)) (fileExtension : List Char) (e : DirEntry)
    (hnodup : ∀ d ∈ directories, distinctFnames d) :
    e ∈ create_sorted_file_list directories fileExtension ↔
      firstKeptOccur fileExtension directories e := by
  rw [create_sorted_file_list,
    (List.perm_insertionSort fnameLe (collectFiles directories fileExtension)).mem_iff,
    collectFiles, mem_foldl_addDirFiles fileExtension directories hnodup [] e]
  simp [fnameMem]

theorem create_sorted_file_list_c6_witness :
    (⟨"d1".toList, "a.conf".toList, ".conf".toList, true⟩ : DirEntry) ∈
      create_sorted_file_list
        [[⟨"d1".toList, "a.conf".toList, ".conf".toList, true⟩],
         [⟨"d2".toList, "a.conf".toList, ".conf".toList, true⟩]] ".conf".toList :=
  (create_sorted_file_list_first_file_wins _ _ _ (by decide)).mpr
    ⟨[], [⟨"d1".toList, "a.conf".toList, ".conf".toList, true⟩],
      [[⟨"d2".toList, "a.conf".toList, ".conf".toList, true⟩]], rfl,
      by decide, by decide, by decide⟩

/-! ## Error policy of Base::with_config_file_path

Shallow embedding of Base::with_config_file_path.  The wrapped function
can succeed or throw; thrown exceptions are modelled by an error type
with the two configuration errors caught in the source and a catch-all
constructor for every other exception.  Only the relative order of
option priorities matters to the source, which compares the
config_file_path option priority against Option::Priority::COMMANDLINE. -/

inductive DnfException where
  | missingConfig
  | inaccessibleConfig
  | otherException (code : Nat)
deriving DecidableEq

/-- Modelled from the spec: the numeric value of the enumerator
Option::Priority::COMMANDLINE, whose definition is not under src; the
sources only compare priorities against it, so any fixed value with the
documented ordering serves.  A priority at or above it means the user
specified the configuration file explicitly (via --config=...). -/
def commandlinePriority : Nat := 50

/-- Modelled from the spec: the std::filesystem operator/ together with
relative_path, used to place the configuration path under the
installroot; its definition is not under src and its result is opaque to
the error policy under verification. -/
def joinUnderRoot (root rel : List Char) : List Char :=
  root ++ [Char.ofNat 47] ++ rel

/-- The configuration state read by Base::with_config_file_path. -/
structure BaseConfig where
  config_file_path : List Char
  config_file_path_priority : Nat
  use_host_config : Bool
  installroot : List Char
deriving DecidableEq

/-- The conf_path value computed at the top of Base::with_config_file_path. -/
def resolvedConfPath (st : BaseConfig) : List Char :=
  if !st.use_host_config && st.config_file_path_priority < commandlinePriority then
    joinUnderRoot st.installroot st.config_file_path
  else
    st.config_file_path

/-- Embedding of Base::with_config_file_path: call func on the resolved
path; a MissingConfigError or InaccessibleConfigError is rethrown when
the priority is at least COMMANDLINE and swallowed otherwise, every
other exception propagates. -/
def with_config_file_path (st : BaseConfig) (func : List Char → Except DnfException Unit) :
    Except DnfException Unit :=
  match func (resolvedConfPath st) with
  | Except.ok u => Except.ok u
  | Except.error DnfException.missingConfig =>
      if commandlinePriority ≤ st.config_file_path_priority then
        Except.error DnfException.missingConfig
      else
        Except.ok ()
  | Except.error DnfException.inaccessibleConfig =>
      if commandlinePriority ≤ st.config_file_path_priority then
        Except.error DnfException.inaccessibleConfig
      else
        Except.ok ()
  | Except.error e => Except.error e

/-- Claim C2: with_config_file_path swallows a missing-config or
inaccessible-config error exactly when the config-file-path priority is
below COMMANDLINE, re-raises those errors at COMMANDLINE priority or
higher, propagates every other exception unchanged, and passes successes
through. -/
theorem with_config_file_path_error_policy (st : BaseConfig)
    (func : List Char → Except DnfException Unit) :
    (∀ e : DnfException,
      (e = DnfException.missingConfig ∨ e = DnfException.inaccessibleConfig) →
      func (resolvedConfPath st) = Except.error e →
      with_config_file_path st func =
        (if commandlinePriority ≤ st.config_file_path_priority then
          Except.error e
        else
          Except.ok ())) ∧
    (∀ code : Nat,
      func (resolvedConfPath st) = Except.error (DnfException.otherException code) →
      with_config_file_path st func =
        Except.error (DnfException.otherException code)) ∧
    (func (resolvedConfPath st) = Except.ok () →
      with_config_file_path st func = Except.ok ()) := by
  refine ⟨?_, ?_, ?_⟩
  · rintro e (rfl | rfl) hf <;> rw [with_config_file_path, hf]
  · intro code hf
    rw [with_config_file_path, hf]
  · intro hf
    rw [with_config_file_path, hf]

theorem with_config_file_path_c2_witness :
    with_config_file_path
        ⟨"/etc/dnf/dnf.conf".toList, 20, false, "/".toList⟩
        (fun _ => Except.error DnfException.missingConfig) = Except.ok () := by
  have h := (with_config_file_path_error_policy
      ⟨"/etc/dnf/dnf.conf".toList, 20, false, "/".toList⟩
      (fun _ => Except.error DnfException.missingConfig)).1
    DnfException.missingConfig (Or.inl rfl) rfl
  rw [h]
  simp [commandlinePriority]

/-! ## RepoqueryCommand::configure dependent-argument check

Shallow embedding of the control flow of RepoqueryCommand::configure.
Option values are carried in a record; the context side effects of the
function are irrelevant to the claim and are not modelled.  The helper
predicates requires_filelists (libdnf5 cli output) and is_file_pattern
(libdnf5 utils) are defined outside this repository and enter as
function parameters. -/

structure RepoqueryOpts where
  querytags : Bool
  pkg_attr : List Char
  query_format : List Char
  exactdeps : Bool
  whatrequires : List (List Char)
  whatdepends : List (List Char)
  whatconflicts : List (List Char)
  whatprovides : List (List Char)
  whatobsoletes : List (List Char)
  whatrecommends : List (List Char)
  whatenhances : List (List Char)
  whatsupplements : List (List Char)
  whatsuggests : List (List Char)

inductive CliError where
  | missingDependentArgument
deriving DecidableEq

/-- The capability lists scanned for file patterns, in source order. -/
def capabilityLists (o : RepoqueryOpts) : List (List (List Char)) :=
  [o.whatrequires, o.whatdepends, o.whatconflicts, o.whatprovides, o.whatobsoletes,
   o.whatrecommends, o.whatenhances, o.whatsupplements, o.whatsuggests]

/-- Embedding of RepoqueryCommand::configure: early return on querytags,
on the files attribute or a filelists-requiring query format, and on any
file-pattern capability; then the exactdeps dependent-argument check
throws ArgumentParserMissingDependentArgumentError. -/
def RepoqueryCommand.configure (requiresFilelists isFilePattern : List Char → Bool)
    (o : RepoqueryOpts) : Except CliError Unit :=
  if o.querytags then Except.ok ()
  else if o.pkg_attr == "files".toList || requiresFilelists o.query_format then Except.ok ()
  else if (capabilityLists o).any (fun caps => caps.any isFilePattern) then Except.ok ()
  else if o.exactdeps && (o.whatrequires.isEmpty && o.whatdepends.isEmpty) then
    Except.error CliError.missingDependentArgument
  else Except.ok ()

/-- Claim C3: configure raises the missing-dependent-argument parser
error exactly when exactdeps is set, both the whatrequires and
whatdepends lists are empty, querytags is not set, and none of the
filelists early returns fired. -/
theorem configure_missing_dependent_iff
    (requiresFilelists isFilePattern : List Char → Bool) (o : RepoqueryOpts) :
    RepoqueryCommand.configure requiresFilelists isFilePattern o =
        Except.error CliError.missingDependentArgument ↔
      (o.exactdeps = true ∧ o.whatrequires = [] ∧ o.whatdepends = [] ∧
        o.querytags = false ∧ o.pkg_attr ≠ "files".toList ∧
        requiresFilelists o.query_format = false ∧
        ∀ caps ∈ capabilityLists o, ∀ c ∈ caps, isFilePattern c = false) := by
  rw [RepoqueryCommand.configure]
  by_cases hq : o.querytags
  · simp [hq]
  · rw [if_neg hq]
    by_cases ha : (o.pkg_attr == "files".toList || requiresFilelists o.query_format) = true
    · rw [if_pos ha]
      rw [Bool.or_eq_true, beq_iff_eq] at ha
      constructor
      · intro h
        exact absurd h (by simp)
      · rintro ⟨_, _, _, _, hattr, hrf, _⟩
        rcases ha with h | h
        · exact absurd h hattr
        · rw [hrf] at h
          exact absurd h (by simp)
    · rw [if_neg ha]
      rw [Bool.or_eq_true, beq_iff_eq] at ha
      push_neg at ha
      by_cases hf : ((capabilityLists o).any fun caps => caps.any isFilePattern) = true
      · rw [if_pos hf]
        simp only [List.any_eq_true] at hf
        constructor
        · intro h
          exact absurd h (by simp)
        · rintro ⟨_, _, _, _, _, _, hall⟩
          obtain ⟨caps, hcaps, c, hc, hfp⟩ := hf
          rw [hall caps hcaps c hc] at hfp
          exact absurd hfp (by simp)
      · rw [if_neg hf]
        simp only [List.any_eq_true, not_exists] at hf
        push_neg at hf
        by_cases he : (o.exactdeps && (o.whatrequires.isEmpty && o.whatdepends.isEmpty)) = true
        · rw [if_pos he]
          simp only [Bool.and_eq_true, List.isEmpty_iff] at he
          simp only [true_iff]
          refine ⟨he.1, he.2.1, he.2.2, Bool.of_not_eq_true hq, ha.1,
            Bool.of_not_eq_true ha.2, ?_⟩
          intro caps hcaps c hc
          exact Bool.of_not_eq_true (hf caps hcaps c hc)
        · rw [if_neg he]
          simp only [Bool.and_eq_true, List.isEmpty_iff] at he
          constructor
          · intro h
            exact absurd h (by simp)
          · rintro ⟨hex, hwr, hwd, _⟩
            exact absurd ⟨hex, hwr, hwd⟩ he

/-! ## Package sets and the repoquery filter pipeline

Modelled from the spec: the data model section describes PackageQuery
and PackageSet as "a mutable, copyable set-like view over packages,
combined via union/intersection/difference and narrowed via filter
predicates (arch, provides, requires, file ownership, etc.)"; the
implementation of the set container and of the filter predicates lives
in the wrapped libdnf library, not under src.  A package is an immutable
handle carrying the attributes the inspected filters read; a package set
is a finite set of packages. -/

structure Pkg where
  nevra : List Char
  arch : List Char
  provides : List (List Char)
  files : List (List Char)
deriving DecidableEq

structure PackageSet where
  pkgs : Finset Pkg
deriving DecidableEq

theorem PackageSet.eq_of_pkgs_eq {a b : PackageSet} (h : a.pkgs = b.pkgs) : a = b := by
  cases a
  cases b
  cases h
  rfl

/-- Modelled from the spec: operator |= on PackageSet and PackageQuery,
the set union used throughout RepoqueryCommand::run to merge partial
results into result_query. -/
def PackageSet.unionAssign (a b : PackageSet) : PackageSet :=
  ⟨a.pkgs ∪ b.pkgs⟩

/-- Modelled from the spec: PackageSet::contains, the membership test
used on base_query for command line packages. -/
def PackageSet.containsPkg (a : PackageSet) (p : Pkg) : Bool :=
  p ∈ a.pkgs

/-- Modelled from the spec: PackageSet::add, insertion of a single
package. -/
def PackageSet.addPkg (a : PackageSet) (p : Pkg) : PackageSet :=
  ⟨insert p a.pkgs⟩

/-- Claim C4: the package-set union is idempotent: merging a query into
itself changes nothing, and repeating a merge changes nothing. -/
theorem packageSet_union_idempotent :
    (∀ q : PackageSet, q.unionAssign q = q) ∧
    (∀ a b : PackageSet, (a.unionAssign b).unionAssign b = a.unionAssign b) := by
  constructor
  · intro q
    apply PackageSet.eq_of_pkgs_eq
    exact Finset.union_self q.pkgs
  · intro a b
    apply PackageSet.eq_of_pkgs_eq
    simp [PackageSet.unionAssign, Finset.union_assoc]

/-- Modelled from the spec: PackageQuery::filter_arch with the GLOB
comparison narrows the query to packages whose architecture matches one
of the patterns; glob matching itself is external and enters as a
parameter. -/
def PackageSet.filter_arch (q : PackageSet) (patterns : List (List Char))
    (globMatch : List Char → List Char → Bool) : PackageSet :=
  ⟨q.pkgs.filter (fun p => patterns.any (fun g => globMatch g p.arch) = true)⟩

/-- Modelled from the spec: PackageQuery::filter_file with the GLOB
comparison narrows the query to packages owning a file matching one of
the patterns. -/
def PackageSet.filter_file (q : PackageSet) (patterns : List (List Char))
    (globMatch : List Char → List Char → Bool) : PackageSet :=
  ⟨q.pkgs.filter (fun p => patterns.any (fun g => p.files.any (fun f => globMatch g f)) = true)⟩

/-- Modelled from the spec: PackageQuery::filter_provides with the GLOB
comparison narrows the query to packages providing a capability matching
one of the patterns. -/
def PackageSet.filter_provides (q : PackageSet) (patterns : List (List Char))
    (globMatch : List Char → List Char → Bool) : PackageSet :=
  ⟨q.pkgs.filter (fun p => patterns.any (fun g => p.provides.any (fun c => globMatch g c)) = true)⟩

/-- Claim C7: the simple narrowing filters commute; applying filter_arch
and filter_file (each with fixed GLOB pattern lists) in either order to a
query yields the same result set. -/
theorem filter_arch_filter_file_comm (globMatch : List Char → List Char → Bool)
    (archPatterns filePatterns : List (List Char)) (q : PackageSet) :
    (q.filter_arch archPatterns globMatch).filter_file filePatterns globMatch =
      (q.filter_file filePatterns globMatch).filter_arch archPatterns globMatch := by
  apply PackageSet.eq_of_pkgs_eq
  simp only [PackageSet.filter_arch, PackageSet.filter_file]
  exact Finset.filter_comm _ _ _

/-- Modelled from the spec: PackageQuery::resolve_pkg_spec narrows the
query to the packages matching the given spec string; the matching logic
(NEVRA forms, case folding) lives in libdnf and enters as a predicate
parameter. -/
def resolve_pkg_spec (matchesSpec : Pkg → List Char → Bool) (q : PackageSet)
    (spec : List Char) : PackageSet :=
  ⟨q.pkgs.filter (fun p => matchesSpec p spec = true)⟩

/-- Embedding of the initial phase of RepoqueryCommand::run: result_query
starts empty; with no key specs the whole base query is merged in;
otherwise each command line package contained in the base query is added
and, for every spec, a copy of the base query narrowed by
resolve_pkg_spec is merged in. -/
def initial_result_query (matchesSpec : Pkg → List Char → Bool) (base_query : PackageSet)
    (cmdline_packages : List Pkg) (pkg_specs : List (List Char)) : PackageSet :=
  if pkg_specs.isEmpty then
    PackageSet.unionAssign ⟨∅⟩ base_query
  else
    let afterCmdline := cmdline_packages.foldl
      (fun acc pkg => if base_query.containsPkg pkg then acc.addPkg pkg else acc)
      (⟨∅⟩ : PackageSet)
    pkg_specs.foldl
      (fun acc spec => acc.unionAssign (resolve_pkg_spec matchesSpec base_query spec))
      afterCmdline

theorem foldl_addPkg_subset (base_query : PackageSet) :
    ∀ (l : List Pkg) (acc : PackageSet), acc.pkgs ⊆ base_query.pkgs →
      (l.foldl
        (fun acc pkg => if base_query.containsPkg pkg then acc.addPkg pkg else acc)
        acc).pkgs ⊆ base_query.pkgs
  | [], _, h => h
  | p :: l, acc, h => by
    rw [List.foldl_cons]
    apply foldl_addPkg_subset base_query l
    by_cases hc : base_query.containsPkg p = true
    · rw [if_pos hc]
      intro x hx
      rcases Finset.mem_insert.mp hx with rfl | hx2
      · exact of_decide_eq_true hc
      · exact h hx2
    · rw [if_neg hc]
      exact h

theorem foldl_unionAssign_resolve_subset (matchesSpec : Pkg → List Char → Bool)
    (base_query : PackageSet) :
    ∀ (specs : List (List Char)) (acc : PackageSet), acc.pkgs ⊆ base_query.pkgs →
      (specs.foldl
        (fun acc spec => acc.unionAssign (resolve_pkg_spec matchesSpec base_query spec))
        acc).pkgs ⊆ base_query.pkgs
  | [], _, h => h
  | s :: specs, acc, h => by
    rw [List.foldl_cons]
    apply foldl_unionAssign_resolve_subset matchesSpec base_query specs
    intro x hx
    rcases Finset.mem_union.mp hx with hx2 | hx2
    · exact h hx2
    · exact (Finset.mem_filter.mp hx2).1

/-- Claim C9: the initial repoquery result set is a subset of the
exclude-respecting base query, and equals the base query when no key
specs are given; excluded packages never enter the result via user
keys. -/
theorem initial_result_query_subset (matchesSpec : Pkg → List Char → Bool)
    (base_query : PackageSet) (cmdline_packages : List Pkg)
    (pkg_specs : List (List Char)) :
    (initial_result_query matchesSpec base_query cmdline_packages pkg_specs).pkgs ⊆
        base_query.pkgs ∧
    (pkg_specs = [] →
      initial_result_query matchesSpec base_query cmdline_packages pkg_specs =
        base_query) := by
  constructor
  · rw [initial_result_query]
    by_cases hs : pkg_specs.isEmpty
    · rw [if_pos hs]
      intro x hx
      rcases Finset.mem_union.mp hx with hx2 | hx2
      · exact absurd hx2 (Finset.not_mem_empty x)
      · exact hx2
    · rw [if_neg hs]
      exact foldl_unionAssign_resolve_subset matchesSpec base_query pkg_specs _
        (foldl_addPkg_subset base_query cmdline_packages _
          (Finset.empty_subset base_query.pkgs))
  · intro hnil
    subst hnil
    rw [initial_result_query]
    rw [if_pos List.isEmpty_nil]
    apply PackageSet.eq_of_pkgs_eq
    exact Finset.empty_union base_query.pkgs

theorem initial_result_query_c9_witness :
    initial_result_query (fun _ _ => true)
        ⟨{⟨"pkg-1.0-1.x86_64".toList, "x86_64".toList, [], []⟩}⟩ [] [] =
      ⟨{⟨"pkg-1.0-1.x86_64".toList, "x86_64".toList, [], []⟩}⟩ :=
  (initial_result_query_subset (fun _ _ => true)
    ⟨{⟨"pkg-1.0-1.x86_64".toList, "x86_64".toList, [], []⟩}⟩ [] []).2 rfl

/-- Embedding of the whatprovides block of RepoqueryCommand::run: when
the whatprovides list is non-empty, a copy of the result query is
narrowed by filter_provides with GLOB; if that copy is non-empty it
becomes the result, otherwise the result is narrowed by filter_file on
the same patterns. -/
def whatprovides_step (globMatch : List Char → List Char → Bool)
    (whatprovides : List (List Char)) (result_query : PackageSet) : PackageSet :=
  if whatprovides.isEmpty then result_query
  else
    let provides_query := result_query.filter_provides whatprovides globMatch
    if provides_query.pkgs ≠ ∅ then provides_query
    else result_query.filter_file whatprovides globMatch

/-- Claim C10: with a non-empty whatprovides list, the result is narrowed
to provides matches when any exist, and only otherwise to file matches;
the provides match takes precedence, the two are never combined, and the
step only narrows the result set. -/
theorem whatprovides_step_precedence (globMatch : List Char → List Char → Bool)
    (whatprovides : List (List Char)) (result_query : PackageSet)
    (hne : whatprovides ≠ []) :
    ((result_query.filter_provides whatprovides globMatch).pkgs ≠ ∅ →
      whatprovides_step globMatch whatprovides result_query =
        result_query.filter_provides whatprovides globMatch) ∧
    ((result_query.filter_provides whatprovides globMatch).pkgs = ∅ →
      whatprovides_step globMatch whatprovides result_query =
        result_query.filter_file whatprovides globMatch) ∧
    (whatprovides_step globMatch whatprovides result_query).pkgs ⊆
      result_query.pkgs := by
  have hie : whatprovides.isEmpty = false := by
    rw [Bool.eq_false_iff]
    intro h
    exact hne (List.isEmpty_iff.mp h)
  refine ⟨?_, ?_, ?_⟩
  · intro h
    rw [whatprovides_step, hie]
    simp only [Bool.false_eq_true, if_false]
    rw [if_pos h]
  · intro h
    rw [whatprovides_step, hie]
    simp only [Bool.false_eq_true, if_false]
    rw [if_neg (by simp [h])]
  · rw [whatprovides_step, hie]
    simp only [Bool.false_eq_true, if_false]
    by_cases h : (result_query.filter_provides whatprovides globMatch).pkgs ≠ ∅
    · rw [if_pos h]
      intro x hx
      exact (Finset.mem_filter.mp hx).1
    · rw [if_neg h]
      intro x hx
      exact (Finset.mem_filter.mp hx).1

theorem whatprovides_step_c10_witness :
    whatprovides_step (fun g c => g == c) ["libfoo".toList]
        ⟨{⟨"foo-1.0-1.x86_64".toList, "x86_64".toList, ["libfoo".toList], []⟩}⟩ =
      PackageSet.filter_provides
        ⟨{⟨"foo-1.0-1.x86_64".toList, "x86_64".toList, ["libfoo".toList], []⟩}⟩
        ["libfoo".toList] (fun g c => g == c) :=
  (whatprovides_step_precedence (fun g c => g == c) ["libfoo".toList]
      ⟨{⟨"foo-1.0-1.x86_64".toList, "x86_64".toList, ["libfoo".toList], []⟩}⟩
      (by decide)).1 (by decide)

/-! ## D-Bus method surface of org.rpm.dnf.v0.rpm.Rpm

Direct transcription of the method declarations of the interface file
org.rpm.dnf.v0.rpm.Rpm.xml: each method with its arguments, their D-Bus
type signatures and directions.  Signals are not methods and are not
part of the claim. -/

inductive ArgDirection where
  | dirIn
  | dirOut
deriving DecidableEq

structure DBusArg where
  name : List Char
  type : List Char
  direction : ArgDirection
deriving DecidableEq

structure DBusMethod where
  name : List Char
  args : List DBusArg
deriving DecidableEq

/-- The methods of interface org.rpm.dnf.v0.rpm.Rpm, in file order. -/
def rpmInterfaceMethods : List DBusMethod :=
  [⟨"list".toList,
    [⟨"options".toList, "a{sv}".toList, ArgDirection.dirIn⟩,
     ⟨"data".toList, "aa{sv}".toList, ArgDirection.dirOut⟩]⟩,
   ⟨"install".toList,
    [⟨"specs".toList, "as".toList, ArgDirection.dirIn⟩,
     ⟨"options".toList, "a{sv}".toList, ArgDirection.dirIn⟩]⟩,
   ⟨"upgrade".toList,
    [⟨"specs".toList, "as".toList, ArgDirection.dirIn⟩,
     ⟨"options".toList, "a{sv}".toList, ArgDirection.dirIn⟩]⟩,
   ⟨"remove".toList,
    [⟨"specs".toList, "as".toList, ArgDirection.dirIn⟩,
     ⟨"options".toList, "a{sv}".toList, ArgDirection.dirIn⟩]⟩,
   ⟨"distro_sync".toList,
    [⟨"specs".toList, "as".toList, ArgDirection.dirIn⟩,
     ⟨"options".toList, "a{sv}".toList, ArgDirection.dirIn⟩]⟩,
   ⟨"downgrade".toList,
    [⟨"specs".toList, "as".toList, ArgDirection.dirIn⟩,
     ⟨"options".toList, "a{sv}".toList, ArgDirection.dirIn⟩]⟩,
   ⟨"reinstall".toList,
    [⟨"specs".toList, "as".toList, ArgDirection.dirIn⟩,
     ⟨"options".toList, "a{sv}".toList, ArgDirection.dirIn⟩]⟩]

/-- A method accepts a spec list when some input argument is an array of
strings (D-Bus signature as). -/
def hasSpecListArg (m : DBusMethod) : Bool :=
  m.args.any (fun a => a.type == "as".toList && a.direction == ArgDirection.dirIn)

/-- A method accepts an options dictionary when some input argument is a
string-to-variant map (D-Bus signature a-braced-sv). -/
def hasOptionsDictArg (m : DBusMethod) : Bool :=
  m.args.any (fun a => a.type == "a{sv}".toList && a.direction == ArgDirection.dirIn)

/-- The claim of C5 as stated: every one of the seven named methods
accepts a spec list plus an options dictionary. -/
def c5ClaimAsStated : Prop :=
  ∀ m ∈ rpmInterfaceMethods,
    (m.name = "list".toList ∨ m.name = "install".toList ∨ m.name = "upgrade".toList ∨
      m.name = "remove".toList ∨ m.name = "distro_sync".toList ∨
      m.name = "downgrade".toList ∨ m.name = "reinstall".toList) →
    hasSpecListArg m = true ∧ hasOptionsDictArg m = true

/-- Claim C5 counterexample: the method named list has no string-array
input argument at all, so it does not accept a spec list; the claim as
stated is false. -/
theorem rpm_interface_c5_counterexample :
    ¬ c5ClaimAsStated ∧
    (rpmInterfaceMethods.find? (fun m => m.name == "list".toList)).map hasSpecListArg =
      some false := by
  constructor
  · intro h
    have hm := h ⟨"list".toList,
        [⟨"options".toList, "a{sv}".toList, ArgDirection.dirIn⟩,
         ⟨"data".toList, "aa{sv}".toList, ArgDirection.dirOut⟩]⟩
      (by decide) (Or.inl rfl)
    exact absurd hm.1 (by decide)
  · decide

/-- Claim C5 as amended: each of the six transaction methods (install,
upgrade, remove, distro_sync, downgrade, reinstall) accepts a spec list
and an options dictionary, while list accepts an options dictionary but
no spec-list argument. -/
theorem rpm_interface_method_arguments :
    (∀ m ∈ rpmInterfaceMethods,
      (m.name = "install".toList ∨ m.name = "upgrade".toList ∨
        m.name = "remove".toList ∨ m.name = "distro_sync".toList ∨
        m.name = "downgrade".toList ∨ m.name = "reinstall".toList) →
      hasSpecListArg m = true ∧ hasOptionsDictArg m = true) ∧
    (∀ m ∈ rpmInterfaceMethods, m.name = "list".toList →
      hasSpecListArg m = false ∧ hasOptionsDictArg m = true) := by
  constructor
  · decide
  · decide

theorem rpm_interface_c5_witness :
    hasSpecListArg
        ⟨"install".toList,
          [⟨"specs".toList, "as".toList, ArgDirection.dirIn⟩,
           ⟨"options".toList, "a{sv}".toList, ArgDirection.dirIn⟩]⟩ = true ∧
    hasOptionsDictArg
        ⟨"install".toList,
          [⟨"specs".toList, "as".toList, ArgDirection.dirIn⟩,
           ⟨"options".toList, "a{sv}".toList, ArgDirection.dirIn⟩]⟩ = true :=
  rpm_interface_method_arguments.1
    ⟨"install".toList,
      [⟨"specs".toList, "as".toList, ArgDirection.dirIn⟩,
       ⟨"options".toList, "a{sv}".toList, ArgDirection.dirIn⟩]⟩
    (by decide) (Or.inl rfl)

theorem configure_missing_dependent_c3_witness :
    RepoqueryCommand.configure (fun _ => false) (fun _ => false)
        ⟨false, [], [], true, [], [], [], [], [], [], [], [], []⟩ =
      Except.error CliError.missingDependentArgument :=
  (configure_missing_dependent_iff (fun _ => false) (fun _ => false)
      ⟨false, [], [], true, [], [], [], [], [], [], [], [], []⟩).mpr
    ⟨rfl, rfl, rfl, rfl, by decide, rfl, by decide⟩
